import Mathlib

/-!
Verification of the path-filtering / tree-rendering core of `code4lm`
(`src/code4lm/main.py`), as a shallow embedding in Lean.

Modelling conventions:
* A directory listing is a `List FSEntry`; the order of the list is the order
  the operating system happens to return entries in (`os.scandir`,
  `Path.iterdir`).
* Python strings are Lean `String`s; every Python string primitive used by the
  source (`endswith`, `startswith`, `lower`, `<` on paths) is re-implemented
  here over `String.data` (the code-point list), which is exactly Python's
  semantics, instead of Lean's byte-position based builtins.
* The `pathspec` gitignore matcher is third-party code; it enters the source
  only through an optional object with a `match_file : str -> bool` method, so
  it is embedded as an `Option (String → Bool)` parameter.
* Reading a file is embedded as an oracle (`Except`/`FileLookup` valued
  functions): the filesystem content seen by one run of the program.
-/

/-- Code-point list order, `clLe l₁ l₂` iff `l₁ ≤ l₂` in Python's lexicographic
string order (shorter list first on ties). -/
def clLe : List Char → List Char → Bool
  | [], _ => true
  | _ :: _, [] => false
  | a :: as, b :: bs =>
    if a < b then true
    else if b < a then false
    else clLe as bs

/-- Strict version of `clLe`: Python's `<` on strings viewed as code-point lists. -/
def clLt : List Char → List Char → Bool
  | [], [] => false
  | [], _ :: _ => true
  | _ :: _, [] => false
  | a :: as, b :: bs =>
    if a < b then true
    else if b < a then false
    else clLt as bs

/-- Python `s1 <= s2` on strings (code-point lexicographic). -/
def pyStrLe (s t : String) : Prop := clLe s.data t.data = true

/-- Python `s1 < s2` on strings (code-point lexicographic). -/
def pyStrLt (s t : String) : Prop := clLt s.data t.data = true

instance : DecidableRel pyStrLe := fun _ _ => inferInstanceAs (Decidable (_ = true))

instance : DecidableRel pyStrLt := fun _ _ => inferInstanceAs (Decidable (_ = true))

/-- Leading-block test: `isPre p l` iff `p` is a leading block of `l`.  With
code-point lists this is Python's `startswith`; with component lists it is
"directory contains". -/
def isPre {α : Type} [BEq α] : List α → List α → Bool
  | [], _ => true
  | _ :: _, [] => false
  | a :: as, b :: bs => a == b && isPre as bs

/-- Python `s.startswith(p)`. -/
def pyStartsWith (s p : String) : Bool := isPre p.data s.data

/-- Python `s.endswith(p)`: `p.data` is a suffix of `s.data`. -/
def pyEndsWith (s p : String) : Bool := isPre p.data.reverse s.data.reverse

/-- Python `s.lower()`; ASCII letters only, which is what both the Lean and the
Python function do on ASCII file names (non-ASCII case folding is out of scope). -/
def pyLower (s : String) : String := ⟨s.data.map Char.toLower⟩

/-- Filesystem tree: what one run of the program can observe of a directory.
`dir name children` lists the children in operating-system order. -/
inductive FSEntry where
  | file (name : String)
  | dir (name : String) (children : List FSEntry)

/-- Basename of an entry (`item_path.name` / `filename` / `d` in the source). -/
def FSEntry.name : FSEntry → String
  | .file n => n
  | .dir n _ => n

/-- Python `item_path.is_file()`. -/
def FSEntry.isFile : FSEntry → Bool
  | .file _ => true
  | .dir _ _ => false

/-- Python `str(item_path.relative_to(root_path))` for a child named `n` of the
directory whose relative path is `pre` (`""` for the root): `pathlib` joins
nested components with `/` and renders a top-level child as just its name. -/
def childRel (pre n : String) : String := if pre = "" then n else pre ++ "/" ++ n

/-- Code points contributed by the parent part of `childRel pre n` (empty at
the root, otherwise the parent path followed by the separator). -/
def preData (pre : String) : List Char := if pre = "" then [] else pre.data ++ ['/']

/-- Configuration handed to the core functions: `exclude_dirs`, `exclude_files`,
`extensions` and the parsed optional gitignore matcher. -/
structure ScanConfig where
  exclude_dirs : List String
  exclude_files : List String
  extensions : List String
  gitignore_spec : Option (String → Bool)

/-- Python `gitignore_spec and gitignore_spec.match_file(p)`: `False` whenever the
spec is `None`. -/
def giMatch : Option (String → Bool) → String → Bool
  | none, _ => false
  | some m, p => m p

/-- Source `load_gitignore_spec` (main.py lines 16-26): the filesystem argument is
`none` when `.gitignore` is not a file, `some (.error e)` when opening or parsing
raises `IOError`, and `some (.ok m)` when `pathspec` parses it into a matcher `m`. -/
def load_gitignore_spec : Option (Except String (String → Bool)) → Option (String → Bool)
  | none => none
  | some (.error _) => none
  | some (.ok m) => some m

/-- Extension test of `find_files_to_process` (main.py line 105):
`any(file_path.name == ext or file_path.name.endswith(ext) for ext in extensions)`. -/
def extMatch (exts : List String) (n : String) : Bool :=
  exts.any fun ext => n == ext || pyEndsWith n ext

/-- Extension test of `create_directory_tree` (main.py line 59):
`any(item_path.name.endswith(ext) for ext in extensions)`. -/
def extMatchTree (exts : List String) (n : String) : Bool :=
  exts.any fun ext => pyEndsWith n ext

/-- File admission test of `find_files_to_process` (main.py lines 102-105): not in
`exclude_files`, not gitignore-matched on the slashless relative path, and
extension-matched. -/
def fileAdmitted (cfg : ScanConfig) (pre n : String) : Bool :=
  if cfg.exclude_files.contains n || giMatch cfg.gitignore_spec (childRel pre n) then false
  else extMatch cfg.extensions n

/-- Directory descent test of `find_files_to_process` (main.py lines 93-96): kept
unless the basename is in `exclude_dirs` or gitignore matches the slash-suffixed
relative path.  `create_directory_tree` (lines 49-52) renders a directory under
exactly the same condition. -/
def dirKept (cfg : ScanConfig) (pre n : String) : Bool :=
  !(cfg.exclude_dirs.contains n || giMatch cfg.gitignore_spec (childRel pre n ++ "/"))

/-- Files of one `os.walk` tuple that pass the inclusion test (main.py lines
99-106), in operating-system order, as relative path strings. -/
def levelFiles (cfg : ScanConfig) (pre : String) (cs : List FSEntry) : List String :=
  cs.filterMap fun e =>
    match e with
    | .file n => if fileAdmitted cfg pre n then some (childRel pre n) else none
    | .dir _ _ => none

mutual
/-- Relative paths contributed to `files_to_process` by descending into one child
entry: nothing for a plain file (files are collected by `levelFiles` of their own
directory), and for a directory the whole recursive walk if it is kept, nothing
if it is pruned (main.py lines 86-96). -/
def walkEntry (cfg : ScanConfig) (pre : String) : FSEntry → List String
  | .file _ => []
  | .dir n cs =>
    if dirKept cfg pre n then
      levelFiles cfg (childRel pre n) cs ++ walkList cfg (childRel pre n) cs
    else []
/-- Concatenation of `walkEntry` over a directory listing, in operating-system
order, matching the order in which `os.walk` visits kept subdirectories. -/
def walkList (cfg : ScanConfig) (pre : String) : List FSEntry → List String
  | [] => []
  | e :: rest => walkEntry cfg pre e ++ walkList cfg pre rest
end

/-- All relative file paths collected by the `os.walk` loop of
`find_files_to_process` below the directory with relative path `pre` whose
listing is `cs`: own files first, then the recursive walks of kept
subdirectories. -/
def walkLevel (cfg : ScanConfig) (pre : String) (cs : List FSEntry) : List String :=
  levelFiles cfg pre cs ++ walkList cfg pre cs

/-- Source `find_files_to_process` (main.py lines 77-108).  The root listing is
`none` when the project path cannot be walked (`os.walk` then yields nothing).
The collected relative paths are returned sorted; Python sorts the relative
`Path` objects, which on POSIX compares their strings code-point
lexicographically. -/
def find_files_to_process (cfg : ScanConfig) (root : Option (List FSEntry)) : List String :=
  match root with
  | none => []
  | some cs => List.insertionSort pyStrLe (walkLevel cfg "" cs)

/-- Sort relation of `create_directory_tree` (main.py line 38):
`sorted(..., key=lambda p: (p.is_file(), p.name.lower()))`, i.e. directories
before files, ties broken by lowercased basename, code-point lexicographically.
Python's sort is stable, and so is `List.insertionSort`, so the embedding below
produces the same list. -/
def treeLe (a b : FSEntry) : Bool :=
  if a.isFile = b.isFile then clLe (pyLower a.name).data (pyLower b.name).data
  else if a.isFile then false else true

/-- The relation `treeLe` lifted to pairs whose first component is the entry; the
second component carries the recursively precomputed data of the entry's
subtree and is ignored by the comparison, exactly as Python's `key=` sort never
looks beyond the key. -/
def pairLe {β : Type} (a b : FSEntry × β) : Prop := treeLe a.1 b.1 = true

instance {β : Type} : DecidableRel (pairLe (β := β)) :=
  fun _ _ => inferInstanceAs (Decidable (_ = true))

/-- Filter of `create_directory_tree`'s `items_to_render` loop (main.py lines
43-61): gitignore on the relative path (slash-suffixed for directories), then
the `exclude_dirs` basename test (applied to files as well — the source checks
`item_path.name in exclude_dirs` before asking whether the item is a file), then
for files `exclude_files` and the extension test. -/
def renderKeep (cfg : ScanConfig) (pre : String) (e : FSEntry) : Bool :=
  if giMatch cfg.gitignore_spec
      (if e.isFile then childRel pre e.name else childRel pre e.name ++ "/") then false
  else if cfg.exclude_dirs.contains e.name then false
  else
    match e with
    | .dir _ _ => true
    | .file n => if cfg.exclude_files.contains n then false else extMatchTree cfg.extensions n

/-- The `items_to_render` pipeline of `create_directory_tree` (main.py lines
37-61) on a directory listing paired with precomputed subtree data: sort
directories-first/lowercased-name (stable), then keep the renderable items. -/
def sortFilterPairs {β : Type} (cfg : ScanConfig) (pre : String)
    (pairs : List (FSEntry × β)) : List (FSEntry × β) :=
  (List.insertionSort pairLe pairs).filter fun p => renderKeep cfg pre p.1

/-- Rendering loop of `create_directory_tree` (main.py lines 63-70): one line per
item with `├── ` for all but the last sibling and `└── ` for the last, and for a
directory the recursively rendered block at the extended column prefix (the
second pair component, applied to the new prefix), before the remaining
siblings. -/
def emitLoop (pfx : String) : List (FSEntry × (String → List String)) → List String
  | [] => []
  | (e, sub) :: rest =>
    (pfx ++ (if rest.isEmpty then "└── " else "├── ") ++ e.name)
      :: (sub (pfx ++ (if rest.isEmpty then "    " else "│   ")) ++ emitLoop pfx rest)

mutual
/-- Tree lines of the subtree rooted at one entry, as a function of the column
prefix: empty for a file (a file contributes only its own line, emitted by its
parent's loop), and for a directory the rendered lines of its children
(main.py `recursive_walk`).  The source recurses only into directories that
survive the filter; here every child's subtree render is precomputed and
`sortFilterPairs` drops the pruned ones, which yields the same lines. -/
def renderSub (cfg : ScanConfig) (pre : String) : FSEntry → String → List String
  | .file _ => fun _ => []
  | .dir n cs => fun pfx =>
    emitLoop pfx (sortFilterPairs cfg (childRel pre n) (renderPairs cfg (childRel pre n) cs))
/-- Pair each entry of a directory listing with its precomputed subtree render. -/
def renderPairs (cfg : ScanConfig) (pre : String) : List FSEntry → List (FSEntry × (String → List String))
  | [] => []
  | e :: rest => (e, renderSub cfg pre e) :: renderPairs cfg pre rest
end

/-- Join tree lines with newlines (`"\n".join(tree_lines)`). -/
def joinLines : List String → String
  | [] => ""
  | [s] => s
  | s :: rest => s ++ "\n" ++ joinLines rest

/-- Source `create_directory_tree` (main.py lines 29-74).  `rootName` is
`root_path.resolve().name`; the root listing is `none` when `iterdir` raises
(`FileNotFoundError`/`PermissionError`), in which case only the root line is
produced. -/
def create_directory_tree (cfg : ScanConfig) (rootName : String)
    (root : Option (List FSEntry)) : String :=
  match root with
  | none => rootName ++ "/"
  | some cs =>
    joinLines ((rootName ++ "/") :: emitLoop "" (sortFilterPairs cfg "" (renderPairs cfg "" cs)))

/-- Relative path contributed by an entry rendered as a file line of the tree
(nothing for a directory, whose own files are collected recursively). -/
def treeFileItem (pre : String) : FSEntry → List String
  | .file n => [childRel pre n]
  | .dir _ _ => []

/-- Collect, for one directory level given as precomputed pairs, the relative
paths of the files admitted into the tree: a rendered file contributes its
relative path, a rendered directory contributes its recursively collected
files.  This is the same `sortFilterPairs` admission pipeline that produces the
tree lines, with the file lines replaced by their relative paths. -/
def collectLevel (cfg : ScanConfig) (pre : String)
    (pairs : List (FSEntry × List String)) : List String :=
  (sortFilterPairs cfg pre pairs).flatMap fun p => treeFileItem pre p.1 ++ p.2

mutual
/-- Relative paths of the files admitted into the rendered tree inside the
subtree of one entry (empty for a file, which is admitted by its parent). -/
def treeFilesEntry (cfg : ScanConfig) (pre : String) : FSEntry → List String
  | .file _ => []
  | .dir n cs =>
    collectLevel cfg (childRel pre n) (treeFilesPairs cfg (childRel pre n) cs)
/-- Pair each entry of a directory listing with its admitted-file collection. -/
def treeFilesPairs (cfg : ScanConfig) (pre : String) : List FSEntry → List (FSEntry × List String)
  | [] => []
  | e :: rest => (e, treeFilesEntry cfg pre e) :: treeFilesPairs cfg pre rest
end

/-- Set of files admitted as file entries into the rendered tree, in tree
traversal order (root listing `none` when unreadable, as in
`create_directory_tree`). -/
def treeFiles (cfg : ScanConfig) (root : Option (List FSEntry)) : List String :=
  match root with
  | none => []
  | some cs => collectLevel cfg "" (treeFilesPairs cfg "" cs)

/-- Walk contribution of one entry viewed from its parent directory, without the
descent gate: empty for a file, and the full recursive walk of the children for
a directory.  (`walkEntry e = subWalk e` when the directory is kept, `[]` when
it is pruned.) -/
def subWalk (cfg : ScanConfig) (pre : String) : FSEntry → List String
  | .file _ => []
  | .dir n cs => walkLevel cfg (childRel pre n) cs

/-- Basenames of a directory listing. -/
def namesOf (cs : List FSEntry) : List String := cs.map FSEntry.name

/-- Boolean duplicate-freedom test. -/
def nodupB : List String → Bool
  | [] => true
  | n :: rest => !(rest.contains n) && nodupB rest

/-- A string that can be a POSIX basename: nonempty and without `/`. -/
def validName (n : String) : Bool := !n.data.isEmpty && !(n.data.contains '/')

mutual
/-- Well-formedness of a filesystem entry as an operating system could produce
it: its basename is a valid name, and each directory's listing has pairwise
distinct basenames and well-formed members. -/
def wfE : FSEntry → Bool
  | .file n => validName n
  | .dir n cs => validName n && (nodupB (namesOf cs) && wfL cs)
/-- Well-formedness of the members of a listing. -/
def wfL : List FSEntry → Bool
  | [] => true
  | e :: rest => wfE e && wfL rest
end

/-- Well-formedness of a root listing: distinct basenames, well-formed members. -/
def wfTop (cs : List FSEntry) : Bool := nodupB (namesOf cs) && wfL cs

mutual
/-- Whether no file anywhere in the subtree of an entry has a basename in `exd`
(directory basenames are unconstrained). -/
def fileNamesOkE (exd : List String) : FSEntry → Bool
  | .file n => !(exd.contains n)
  | .dir _ cs => fileNamesOkL exd cs
/-- `fileNamesOkE` over a listing. -/
def fileNamesOkL (exd : List String) : List FSEntry → Bool
  | [] => true
  | e :: rest => fileNamesOkE exd e && fileNamesOkL exd rest
end

/-- Split a code-point list on `'/'` (Python path strings are parsed on `/`);
`splitSlashAux acc l` prepends the reversed accumulator to the first produced
component. -/
def splitSlashAux (acc : List Char) : List Char → List (List Char)
  | [] => [acc.reverse]
  | c :: rest => if c = '/' then acc.reverse :: splitSlashAux [] rest else splitSlashAux (c :: acc) rest

/-- Components of a relative path string, `'/'`-separated (empty components for
repeated slashes, dropped later by resolution, as `pathlib` drops them). -/
def splitSlash (s : String) : List String := (splitSlashAux [] s.data).map String.mk

/-- One step of `Path.resolve()` normalisation: skip empty and `.` components,
let `..` drop the last component (staying at `/` when already there), push
anything else. -/
def resolveStep (acc : List String) (c : String) : List String :=
  if c = "" ∨ c = "." then acc
  else if c = ".." then acc.dropLast
  else acc ++ [c]

/-- Python `(project_root / relative_path_str).resolve()` with the project root
already resolved to the absolute components `root` and no symbolic links: a
relative path starting with `/` replaces the root (that is what `Path./` does),
and resolution folds `resolveStep` over the components. -/
def resolveRel (root : List String) (rel : String) : List String :=
  (splitSlash rel).foldl resolveStep (if pyStartsWith rel "/" then [] else root)

/-- Python `str(path)` for an absolute path given by its components. -/
def pathStr : List String → String
  | [] => "/"
  | [c] => "/" ++ c
  | c :: rest => "/" ++ c ++ pathStr rest

/-- Whether the resolved components escape the root directory: the root's
component list is not a leading block of the resolved list.  This is what
"lies inside the root" means; the source instead compares rendered strings
with `startswith`. -/
def escapesRoot (root resolved : List String) : Bool :=
  !(isPre root resolved)

/-- What the filesystem says about one resolved absolute path when
`get_files_content` looks at it: not a regular file, a readable file with the
given content, or a file whose open/read raises with the given message. -/
inductive FileLookup where
  | notFile
  | readable (content : String)
  | unreadable (reason : String)

/-- Output segment(s) appended by one iteration of the `get_files_content` loop
(main.py lines 304-330): the access-denied marker when the string-prefix guard
fails, the not-found marker, the separator plus content on a successful read,
or the read-error marker. -/
def gfcSeg (look : List String → FileLookup) (root : List String) (rel : String) : List String :=
  let fp := resolveRel root rel
  if !(pyStartsWith (pathStr fp) (pathStr root)) then
    ["# ===== Access Denied: " ++ rel ++ " =====\n"]
  else
    match look fp with
    | .notFile => ["# ===== File Not Found: " ++ rel ++ " =====\n"]
    | .readable content => ["\n\n# ===== File Path: " ++ rel ++ " =====\n\n", content]
    | .unreadable reason =>
      ["# ===== Error Reading File: " ++ rel ++ " | Reason: " ++ reason ++ " =====\n"]

/-- The `output_parts` list built by the `get_files_content` loop, in request
order. -/
def gfcParts (look : List String → FileLookup) (root : List String) : List String → List String
  | [] => []
  | rel :: rest => gfcSeg look root rel ++ gfcParts look root rest

/-- Python `"".join(parts)`. -/
def strJoin : List String → String
  | [] => ""
  | s :: rest => s ++ strJoin rest

/-- Source `get_files_content` (main.py lines 285-336): `root` is the resolved
project root's components, `look` the filesystem oracle, and the result either
the fixed no-files message (when `output_parts` stayed empty) or the
concatenated parts. -/
def get_files_content (look : List String → FileLookup) (root : List String)
    (rels : List String) : String :=
  let parts := gfcParts look root rels
  if parts.isEmpty then "No files were read. Please check the file paths."
  else strJoin parts

/-- Output part and log line produced for one included file by the read loop of
`generate_output_string` (main.py lines 133-144): on success the separator plus
content and a `Merged` log line; on any exception an empty output contribution
— the source only logs, it appends nothing to `output_parts` — and the
`Could not read file` log line carrying the reason. -/
def mergeSeg (reader : String → Except String String) (rel : String) : String × String :=
  match reader rel with
  | .ok content =>
    ("\n\n# ===== File Path: " ++ rel ++ " =====\n\n" ++ content, "✅ Merged: " ++ rel)
  | .error e =>
    ("", "⚠️  Could not read file (skipped): " ++ rel ++ " | Reason: " ++ e)

/-- Source `generate_output_string` (main.py lines 111-146): returns the merged
output text together with the list of logger lines, in order.  `reader` is the
filesystem oracle for `open(project_root / rel).read()` keyed by the relative
path. -/
def generate_output_string (cfg : ScanConfig) (rootName : String)
    (root : Option (List FSEntry)) (reader : String → Except String String) :
    String × List String :=
  let tree := create_directory_tree cfg rootName root
  let files := find_files_to_process cfg root
  ("# ===== Project Directory Tree =====\n" ++ tree ++ "\n\n# ===================================\n"
     ++ strJoin (files.map fun r => (mergeSeg reader r).1),
   ["🌳 Generating directory tree...", "✅ Directory tree generated.",
    "🔍 Finding files to merge...",
    "📖 Found " ++ toString files.length ++ " files to merge. Reading content..."]
     ++ files.map fun r => (mergeSeg reader r).2)

-- Sanity checks on small concrete layouts (spec section 8 scenarios).
example :
    find_files_to_process
      ⟨["node_modules"], [], [".py"], none⟩
      (some [.dir "src" [.file "a.py", .file "b.txt"], .dir "node_modules" [.file "x.py"]])
      = ["src/a.py"] := by decide

example :
    find_files_to_process
      ⟨[], [], [".py"], some fun p => pyEndsWith p ".log"⟩
      (some [.file "app.log", .file "app.py"])
      = ["app.py"] := by decide

example :
    create_directory_tree
      ⟨["node_modules"], [], [".py"], none⟩
      "proj"
      (some [.dir "src" [.file "b.txt", .file "a.py"], .dir "node_modules" [.file "x.py"]])
      = "proj/\n└── src\n    └── a.py" := by decide

example :
    treeFiles
      ⟨["node_modules"], [], [".py"], none⟩
      (some [.dir "src" [.file "b.txt", .file "a.py"], .dir "node_modules" [.file "x.py"]])
      = ["src/a.py"] := by decide

example : resolveRel ["home", "proj"] "../outside.txt" = ["home", "outside.txt"] := by decide

example : resolveRel ["home", "proj"] "src/./a.py" = ["home", "proj", "src", "a.py"] := by decide

example :
    get_files_content (fun _ => .notFile) ["home", "proj"] ["../outside.txt"]
      = "# ===== Access Denied: ../outside.txt =====\n" := by decide

example :
    get_files_content (fun c => if c = ["home", "proj", "a.py"] then .readable "body" else .notFile)
      ["home", "proj"] ["a.py"]
      = "\n\n# ===== File Path: a.py =====\n\nbody" := by decide

/-! Basic lemmas about the string primitives. -/

theorem isPre_iff {α : Type} [BEq α] [LawfulBEq α] (p l : List α) :
    isPre p l = true ↔ ∃ t, l = p ++ t := by
  induction p generalizing l with
  | nil => simp [isPre]
  | cons a as ih =>
    cases l with
    | nil => simp [isPre]
    | cons b bs =>
      simp only [isPre, Bool.and_eq_true, beq_iff_eq, ih, List.cons_append, List.cons.injEq]
      constructor
      · rintro ⟨h, t, ht⟩
        exact ⟨t, h.symm, ht⟩
      · rintro ⟨t, hb, ht⟩
        exact ⟨hb.symm, t, ht⟩

theorem pyEndsWith_iff (s p : String) :
    pyEndsWith s p = true ↔ ∃ t, s.data = t ++ p.data := by
  unfold pyEndsWith
  rw [isPre_iff]
  constructor
  · rintro ⟨t, ht⟩
    refine ⟨t.reverse, ?_⟩
    have := congrArg List.reverse ht
    simpa using this
  · rintro ⟨t, ht⟩
    refine ⟨t.reverse, ?_⟩
    rw [ht]
    simp

theorem pyEndsWith_refl (s : String) : pyEndsWith s s = true := by
  rw [pyEndsWith_iff]
  exact ⟨[], rfl⟩

theorem pyStartsWith_iff (s p : String) :
    pyStartsWith s p = true ↔ ∃ t, s.data = p.data ++ t := by
  unfold pyStartsWith
  rw [isPre_iff]

theorem pyStartsWith_append (p t : String) : pyStartsWith (p ++ t) p = true := by
  rw [pyStartsWith_iff]
  exact ⟨t.data, String.data_append p t⟩

theorem string_eq_of_data (s t : String) (h : s.data = t.data) : s = t :=
  congrArg String.mk h

/-! Order lemmas for the code-point lexicographic order. -/

theorem clLe_total (a b : List Char) : clLe a b = true ∨ clLe b a = true := by
  induction a generalizing b with
  | nil => left; rfl
  | cons x xs ih =>
    cases b with
    | nil => right; rfl
    | cons y ys =>
      rcases lt_trichotomy x y with h | h | h
      · left; simp [clLe, h]
      · subst h
        rcases ih ys with h' | h'
        · left; simp [clLe, lt_irrefl, h']
        · right; simp [clLe, lt_irrefl, h']
      · right; simp [clLe, h]

theorem clLe_trans (a b c : List Char) (h₁ : clLe a b = true) (h₂ : clLe b c = true) :
    clLe a c = true := by
  induction a generalizing b c with
  | nil => rfl
  | cons x xs ih =>
    cases b with
    | nil => simp [clLe] at h₁
    | cons y ys =>
      cases c with
      | nil => simp [clLe] at h₂
      | cons z zs =>
        simp only [clLe] at h₁ h₂ ⊢
        rcases lt_trichotomy x y with hxy | hxy | hxy
        · rcases lt_trichotomy y z with hyz | hyz | hyz
          · simp [lt_trans hxy hyz]
          · subst hyz; simp [hxy]
          · rw [if_neg (lt_asymm hyz), if_pos hyz] at h₂; exact absurd h₂ (by simp)
        · subst hxy
          rcases lt_trichotomy x z with hyz | hyz | hyz
          · simp [hyz]
          · subst hyz
            rw [if_neg (lt_irrefl x), if_neg (lt_irrefl x)] at h₁ h₂ ⊢
            exact ih ys zs h₁ h₂
          · rw [if_neg (lt_asymm hyz), if_pos hyz] at h₂; exact absurd h₂ (by simp)
        · rw [if_neg (lt_asymm hxy), if_pos hxy] at h₁; exact absurd h₁ (by simp)

theorem clLe_antisymm (a b : List Char) (h₁ : clLe a b = true) (h₂ : clLe b a = true) :
    a = b := by
  induction a generalizing b with
  | nil =>
    cases b with
    | nil => rfl
    | cons y ys => simp [clLe] at h₂
  | cons x xs ih =>
    cases b with
    | nil => simp [clLe] at h₁
    | cons y ys =>
      simp only [clLe] at h₁ h₂
      rcases lt_trichotomy x y with hxy | hxy | hxy
      · rw [if_neg (lt_asymm hxy), if_pos hxy] at h₂; exact absurd h₂ (by simp)
      · subst hxy
        rw [if_neg (lt_irrefl x), if_neg (lt_irrefl x)] at h₁ h₂
        rw [ih ys h₁ h₂]
      · rw [if_neg (lt_asymm hxy), if_pos hxy] at h₁; exact absurd h₁ (by simp)

theorem clLe_iff_lt_or_eq (a b : List Char) :
    clLe a b = true ↔ clLt a b = true ∨ a = b := by
  induction a generalizing b with
  | nil =>
    cases b with
    | nil => simp [clLe, clLt]
    | cons y ys => simp [clLe, clLt]
  | cons x xs ih =>
    cases b with
    | nil => simp [clLe, clLt]
    | cons y ys =>
      simp only [clLe, clLt]
      rcases lt_trichotomy x y with hxy | hxy | hxy
      · simp [hxy]
      · subst hxy
        simp only [if_neg (lt_irrefl x), ih]
        constructor
        · rintro (h | h)
          · exact Or.inl h
          · exact Or.inr (by rw [h])
        · rintro (h | h)
          · exact Or.inl h
          · exact Or.inr (by injection h)
      · simp only [if_neg (lt_asymm hxy), if_pos hxy, if_neg (lt_asymm hxy)]
        constructor
        · intro h; exact absurd h (by simp)
        · rintro (h | h)
          · exact absurd h (by simp)
          · injection h with h1 _
            exact absurd (h1 ▸ hxy) (lt_irrefl y)

instance : IsTotal String pyStrLe := ⟨fun s t => clLe_total s.data t.data⟩

instance : IsTrans String pyStrLe := ⟨fun a b c => clLe_trans a.data b.data c.data⟩

instance : IsAntisymm String pyStrLe :=
  ⟨fun a b h₁ h₂ => string_eq_of_data a b (clLe_antisymm a.data b.data h₁ h₂)⟩

theorem pyStrLt_of_le_of_ne (s t : String) (h : pyStrLe s t) (hne : s ≠ t) : pyStrLt s t := by
  unfold pyStrLe at h
  unfold pyStrLt
  rcases (clLe_iff_lt_or_eq s.data t.data).mp h with h' | h'
  · exact h'
  · exact absurd (string_eq_of_data s t h') hne

/-! Order lemmas for the tree sort key (directories first, then lowercased
basename). -/

theorem treeLe_total (a b : FSEntry) : treeLe a b = true ∨ treeLe b a = true := by
  unfold treeLe
  cases ha : a.isFile <;> cases hb : b.isFile <;> simp [ha, hb]
  · exact clLe_total _ _
  · exact clLe_total _ _

theorem treeLe_trans (a b c : FSEntry) (h₁ : treeLe a b = true) (h₂ : treeLe b c = true) :
    treeLe a c = true := by
  unfold treeLe at h₁ h₂ ⊢
  cases ha : a.isFile <;> cases hb : b.isFile <;> cases hc : c.isFile <;>
    simp_all
  · exact clLe_trans _ _ _ h₁ h₂
  · exact clLe_trans _ _ _ h₁ h₂

instance {β : Type} : IsTotal (FSEntry × β) pairLe := ⟨fun a b => treeLe_total a.1 b.1⟩

instance {β : Type} : IsTrans (FSEntry × β) pairLe :=
  ⟨fun a b c => treeLe_trans a.1 b.1 c.1⟩

/-! Filtering commutes with the stable sort.  These are generic facts about
`List.insertionSort` for a total transitive relation; they let the excluded
entries of a directory listing be discarded before or after the
`create_directory_tree` sort interchangeably. -/

theorem filter_orderedInsert_neg {α : Type} (r : α → α → Prop) [DecidableRel r]
    (p : α → Bool) (a : α) (l : List α) (ha : p a = false) :
    (l.orderedInsert r a).filter p = l.filter p := by
  induction l with
  | nil => simp [List.orderedInsert, ha]
  | cons b l ih =>
    by_cases h : r a b
    · simp [List.orderedInsert, h, List.filter_cons, ha]
    · cases hb : p b <;> simp [List.orderedInsert, h, List.filter_cons, hb, ih]

theorem filter_orderedInsert_pos {α : Type} (r : α → α → Prop) [DecidableRel r] [IsTrans α r]
    (p : α → Bool) (a : α) (l : List α) (hs : List.Sorted r l) (ha : p a = true) :
    (l.orderedInsert r a).filter p = (l.filter p).orderedInsert r a := by
  induction l with
  | nil => simp [List.orderedInsert, ha]
  | cons b l ih =>
    rcases List.sorted_cons.mp hs with ⟨hb, hl⟩
    by_cases h : r a b
    · cases hpb : p b
      · simp only [List.orderedInsert, if_pos h, List.filter_cons, ha, hpb]
        simp only [if_pos rfl, Bool.false_eq_true, if_false]
        cases hfl : l.filter p with
        | nil => simp [List.orderedInsert]
        | cons c m =>
          have hc : c ∈ l.filter p := by rw [hfl]; exact List.mem_cons_self _ _
          have hac : r a c := IsTrans.trans a b c h (hb c (List.mem_of_mem_filter hc))
          simp [List.orderedInsert, hac]
      · simp [List.orderedInsert, h, List.filter_cons, ha, hpb]
    · cases hpb : p b <;>
        simp [List.orderedInsert, h, List.filter_cons, hpb, ih hl]

theorem filter_insertionSort {α : Type} (r : α → α → Prop) [DecidableRel r]
    [IsTotal α r] [IsTrans α r] (p : α → Bool) (l : List α) :
    (List.insertionSort r l).filter p = List.insertionSort r (l.filter p) := by
  induction l with
  | nil => rfl
  | cons a l ih =>
    cases ha : p a
    · rw [List.insertionSort, filter_orderedInsert_neg r p a _ ha, ih, List.filter_cons]
      simp [ha]
    · rw [List.insertionSort,
        filter_orderedInsert_pos r p a _ (List.sorted_insertionSort r l) ha, ih,
        List.filter_cons]
      simp [ha, List.insertionSort]

/-! Structural lemmas about the walker. -/

theorem walkList_append (cfg : ScanConfig) (pre : String) (l₁ l₂ : List FSEntry) :
    walkList cfg pre (l₁ ++ l₂) = walkList cfg pre l₁ ++ walkList cfg pre l₂ := by
  induction l₁ with
  | nil => simp [walkList]
  | cons e rest ih => simp [walkList, ih]

theorem walkList_eq_flatMap (cfg : ScanConfig) (pre : String) (cs : List FSEntry) :
    walkList cfg pre cs = cs.flatMap (walkEntry cfg pre) := by
  induction cs with
  | nil => rfl
  | cons e rest ih => simp [walkList, ih]

theorem renderPairs_eq_map (cfg : ScanConfig) (pre : String) (cs : List FSEntry) :
    renderPairs cfg pre cs = cs.map fun e => (e, renderSub cfg pre e) := by
  induction cs with
  | nil => rfl
  | cons e rest ih => simp [renderPairs, ih]

theorem treeFilesPairs_eq_map (cfg : ScanConfig) (pre : String) (cs : List FSEntry) :
    treeFilesPairs cfg pre cs = cs.map fun e => (e, treeFilesEntry cfg pre e) := by
  induction cs with
  | nil => rfl
  | cons e rest ih => simp [treeFilesPairs, ih]

mutual
/-- Simultaneous induction over a filesystem entry and a listing (the nested
inductive needs a hand-rolled principle). -/
def fsInduction (P : FSEntry → Prop) (Q : List FSEntry → Prop)
    (hfile : ∀ n, P (.file n)) (hdir : ∀ n cs, Q cs → P (.dir n cs))
    (hnil : Q []) (hcons : ∀ e rest, P e → Q rest → Q (e :: rest)) : ∀ e, P e
  | .file n => hfile n
  | .dir n cs => hdir n cs (fsListInduction P Q hfile hdir hnil hcons cs)
/-- Companion of `fsInduction` for listings. -/
def fsListInduction (P : FSEntry → Prop) (Q : List FSEntry → Prop)
    (hfile : ∀ n, P (.file n)) (hdir : ∀ n cs, Q cs → P (.dir n cs))
    (hnil : Q []) (hcons : ∀ e rest, P e → Q rest → Q (e :: rest)) : ∀ cs, Q cs
  | [] => hnil
  | e :: rest =>
    hcons e rest (fsInduction P Q hfile hdir hnil hcons e)
      (fsListInduction P Q hfile hdir hnil hcons rest)
end

theorem list_any_congr (l : List String) (p q : String → Bool)
    (h : ∀ a ∈ l, p a = q a) : l.any p = l.any q := by
  induction l with
  | nil => rfl
  | cons a rest ih =>
    simp only [List.any_cons, h a (List.mem_cons_self a rest),
      ih fun b hb => h b (List.mem_cons_of_mem a hb)]

/-! Claim C1. -/

/-- C1 (code bug): the claim says every path resolving outside the root is
denied, "including when the resolved path is a sibling directory whose name
shares the root's name as a string prefix".  The source guard at main.py line
308 compares rendered strings with `startswith`, so for root `/home/proj` the
request `../proj2/secret.txt` resolves to `/home/proj2/secret.txt` — outside
the root (`escapesRoot` is `true`) — yet the string check passes and the file
content is returned instead of the access-denied marker, contradicting the
guard's own "Ensure the file is within the project directory" comment. -/
theorem claim_C1_guard_bypassed_on_sibling :
    escapesRoot ["home", "proj"] (resolveRel ["home", "proj"] "../proj2/secret.txt") = true
    ∧ get_files_content
        (fun c => if c = ["home", "proj2", "secret.txt"] then .readable "TOP SECRET" else .notFile)
        ["home", "proj"] ["../proj2/secret.txt"]
        = "\n\n# ===== File Path: ../proj2/secret.txt =====\n\nTOP SECRET" := by
  decide

/-! Claim C9. -/

/-- C9: missing or unreadable configuration degrades gracefully: no
`.gitignore` file (or an `IOError` while reading it) yields no matcher, the
absent matcher reports not-ignored for every path, and an unreadable root
yields a tree consisting of only the root line and an empty file list. -/
theorem claim_C9_graceful_degradation :
    load_gitignore_spec none = none
    ∧ (∀ err : String, load_gitignore_spec (some (Except.error err)) = none)
    ∧ (∀ p : String, giMatch none p = false)
    ∧ (∀ (cfg : ScanConfig) (rootName : String),
        create_directory_tree cfg rootName none = rootName ++ "/")
    ∧ (∀ cfg : ScanConfig, find_files_to_process cfg none = []) :=
  ⟨rfl, fun _ => rfl, fun _ => rfl, fun _ _ => rfl, fun _ => rfl⟩

/-! Claim C10. -/

theorem gfcSeg_ne_nil (look : List String → FileLookup) (root : List String) (rel : String) :
    gfcSeg look root rel ≠ [] := by
  unfold gfcSeg
  cases hc : !(pyStartsWith (pathStr (resolveRel root rel)) (pathStr root))
  · simp only [hc, Bool.false_eq_true, if_false]
    cases look (resolveRel root rel) <;> simp
  · simp [hc]

theorem gfcParts_eq_flatMap (look : List String → FileLookup) (root : List String)
    (rels : List String) : gfcParts look root rels = rels.flatMap (gfcSeg look root) := by
  induction rels with
  | nil => rfl
  | cons r rest ih => simp [gfcParts, ih]

/-- C10: `get_files_content` with an empty request list returns exactly the
fixed no-files message; with a non-empty list the parts are the request-order
concatenation of one non-empty segment group per requested path (content with
its separator, or a denial / not-found / error marker), and the result is
their concatenation. -/
theorem claim_C10_empty_and_segments (look : List String → FileLookup) (root : List String) :
    get_files_content look root [] = "No files were read. Please check the file paths."
    ∧ (∀ rels, gfcParts look root rels = rels.flatMap (gfcSeg look root))
    ∧ (∀ rel, gfcSeg look root rel ≠ [])
    ∧ (∀ rels, rels ≠ [] →
        get_files_content look root rels = strJoin (gfcParts look root rels)) := by
  refine ⟨rfl, gfcParts_eq_flatMap look root, gfcSeg_ne_nil look root, ?_⟩
  intro rels hne
  unfold get_files_content
  have hp : gfcParts look root rels ≠ [] := by
    cases rels with
    | nil => exact absurd rfl hne
    | cons r rest =>
      simp only [gfcParts]
      intro hemp
      exact gfcSeg_ne_nil look root r (List.append_eq_nil.mp hemp).1
  simp only [List.isEmpty_iff, if_neg hp]

/-- Witness for C10 at a concrete input: one not-found request produces its
marker segment via the non-empty branch. -/
theorem claim_C10_empty_and_segments_witness :
    (["a.py"] : List String) ≠ []
    ∧ get_files_content (fun _ => FileLookup.notFile) ["home"] ["a.py"]
      = strJoin (gfcParts (fun _ => FileLookup.notFile) ["home"] ["a.py"]) :=
  ⟨by decide,
    (claim_C10_empty_and_segments (fun _ => FileLookup.notFile) ["home"]).2.2.2
      ["a.py"] (by decide)⟩

/-! Claim C6. -/

/-- C6: a candidate basename passes the extension filter of
`find_files_to_process` iff some configured token matches it by exact equality
or as a code-point suffix; in particular `Dockerfile` is picked up by the token
`Dockerfile` and `app.module.ts` by the token `.ts`, end to end through the
scan. -/
theorem claim_C6_extension_matching (exts : List String) (n : String) :
    (extMatch exts n = true ↔ ∃ ext ∈ exts, n = ext ∨ ∃ t, n.data = t ++ ext.data)
    ∧ find_files_to_process ⟨[], [], ["Dockerfile"], none⟩ (some [.file "Dockerfile"])
      = ["Dockerfile"]
    ∧ find_files_to_process ⟨[], [], [".ts"], none⟩ (some [.file "app.module.ts"])
      = ["app.module.ts"] := by
  refine ⟨?_, by decide, by decide⟩
  unfold extMatch
  simp only [List.any_eq_true, Bool.or_eq_true, beq_iff_eq, pyEndsWith_iff]

/-! Claim C8. -/

theorem fileAdmitted_false_of_no_exts (cfg : ScanConfig) (h : cfg.extensions = [])
    (pre n : String) : fileAdmitted cfg pre n = false := by
  unfold fileAdmitted
  rw [h]
  simp [extMatch]

theorem renderKeep_file_false_of_no_exts (cfg : ScanConfig) (h : cfg.extensions = [])
    (pre n : String) : renderKeep cfg pre (.file n) = false := by
  unfold renderKeep
  rw [h]
  simp [extMatchTree]

theorem walk_nil_of_no_exts (cfg : ScanConfig) (h : cfg.extensions = []) :
    ∀ cs pre, walkLevel cfg pre cs = [] := by
  have hlf : ∀ cs pre, levelFiles cfg pre cs = [] := by
    intro cs pre
    refine List.filterMap_eq_nil_iff.mpr ?_
    intro e _
    cases e with
    | file n => simp [fileAdmitted_false_of_no_exts cfg h]
    | dir n cs' => rfl
  have main : ∀ cs pre, walkList cfg pre cs = [] := by
    refine fsListInduction (fun e => ∀ pre, walkEntry cfg pre e = [])
      (fun cs => ∀ pre, walkList cfg pre cs = []) ?_ ?_ ?_ ?_
    · intro n pre; rfl
    · intro n cs ih pre
      unfold walkEntry
      by_cases hk : dirKept cfg pre n = true
      · rw [if_pos hk, hlf, ih]; rfl
      · rw [if_neg hk]
    · intro pre; rfl
    · intro e rest ihe ihr pre
      show walkEntry cfg pre e ++ walkList cfg pre rest = []
      rw [ihe, ihr]; rfl
  intro cs pre
  unfold walkLevel
  rw [hlf, main]; rfl

/-- C8: with an empty extensions list the scan returns an empty file list, and
the tree admits no file entry at any level (only directories can pass the
render filter), without this degenerate configuration being an error. -/
theorem claim_C8_empty_extensions (cfg : ScanConfig) (root : Option (List FSEntry))
    (pre : String) (pairs : List (FSEntry × (String → List String)))
    (h : cfg.extensions = []) :
    find_files_to_process cfg root = []
    ∧ ∀ p ∈ sortFilterPairs cfg pre pairs, p.1.isFile = false := by
  constructor
  · cases root with
    | none => rfl
    | some cs =>
      show List.insertionSort pyStrLe (walkLevel cfg "" cs) = []
      rw [walk_nil_of_no_exts cfg h cs ""]
      rfl
  · intro p hp
    have hk : renderKeep cfg pre p.1 = true := (List.mem_filter.mp hp).2
    cases hpe : p.1 with
    | file n =>
      rw [hpe, renderKeep_file_false_of_no_exts cfg h pre n] at hk
      exact absurd hk (by simp)
    | dir n cs => rfl

/-- Witness for C8: the degenerate configuration on a concrete layout. -/
theorem claim_C8_empty_extensions_witness :
    (ScanConfig.mk [] [] [] none).extensions = []
    ∧ find_files_to_process ⟨[], [], [], none⟩ (some [.dir "src" [.file "a.py"]]) = [] :=
  ⟨rfl,
    (claim_C8_empty_extensions ⟨[], [], [], none⟩ (some [.dir "src" [.file "a.py"]])
      "" [] rfl).1⟩

/-! Claim C2. -/

theorem renderKeep_dir_false (cfg : ScanConfig) (pre n : String) (dcs : List FSEntry)
    (hex : (cfg.exclude_dirs.contains n
      || giMatch cfg.gitignore_spec (childRel pre n ++ "/")) = true) :
    renderKeep cfg pre (.dir n dcs) = false := by
  cases hg : giMatch cfg.gitignore_spec (childRel pre n ++ "/")
  · rw [hg] at hex
    simp only [Bool.or_false] at hex
    simp [renderKeep, FSEntry.isFile, FSEntry.name, hg, hex]
    exact List.elem_iff.mp hex
  · simp [renderKeep, FSEntry.isFile, FSEntry.name, hg]

theorem sortFilterPairs_drop {β : Type} (cfg : ScanConfig) (pre : String)
    (e : FSEntry) (b : β) (l₁ l₂ : List (FSEntry × β))
    (hkeep : renderKeep cfg pre e = false) :
    sortFilterPairs cfg pre (l₁ ++ (e, b) :: l₂) = sortFilterPairs cfg pre (l₁ ++ l₂) := by
  unfold sortFilterPairs
  rw [filter_insertionSort, filter_insertionSort]
  congr 1
  rw [List.filter_append, List.filter_append, List.filter_cons]
  simp [hkeep]

/-- C2: a directory excluded by basename or by a gitignore match on its
slash-suffixed relative path is never descended into: its entire subtree is
irrelevant to the collected file paths of the walk, to the rendered tree lines,
and to the set of files admitted into the tree, and at the root level to the
final file list. -/
theorem claim_C2_excluded_dir_never_descended (cfg : ScanConfig) (pre pfx n : String)
    (dcs cs₁ cs₂ : List FSEntry)
    (hex : (cfg.exclude_dirs.contains n
      || giMatch cfg.gitignore_spec (childRel pre n ++ "/")) = true) :
    walkLevel cfg pre (cs₁ ++ FSEntry.dir n dcs :: cs₂) = walkLevel cfg pre (cs₁ ++ cs₂)
    ∧ emitLoop pfx (sortFilterPairs cfg pre (renderPairs cfg pre (cs₁ ++ FSEntry.dir n dcs :: cs₂)))
      = emitLoop pfx (sortFilterPairs cfg pre (renderPairs cfg pre (cs₁ ++ cs₂)))
    ∧ collectLevel cfg pre (treeFilesPairs cfg pre (cs₁ ++ FSEntry.dir n dcs :: cs₂))
      = collectLevel cfg pre (treeFilesPairs cfg pre (cs₁ ++ cs₂))
    ∧ (pre = "" →
        find_files_to_process cfg (some (cs₁ ++ FSEntry.dir n dcs :: cs₂))
          = find_files_to_process cfg (some (cs₁ ++ cs₂))) := by
  have hwalk : walkLevel cfg pre (cs₁ ++ FSEntry.dir n dcs :: cs₂)
      = walkLevel cfg pre (cs₁ ++ cs₂) := by
    unfold walkLevel
    have h1 : levelFiles cfg pre (cs₁ ++ FSEntry.dir n dcs :: cs₂)
        = levelFiles cfg pre (cs₁ ++ cs₂) := by
      unfold levelFiles
      rw [List.filterMap_append, List.filterMap_append, List.filterMap_cons]
    have hkept : dirKept cfg pre n = false := by
      unfold dirKept
      rw [hex]
      rfl
    have hentry : walkEntry cfg pre (FSEntry.dir n dcs) = [] := by
      unfold walkEntry
      rw [hkept]
      rfl
    have h2 : walkList cfg pre (cs₁ ++ FSEntry.dir n dcs :: cs₂)
        = walkList cfg pre (cs₁ ++ cs₂) := by
      rw [walkList_append, walkList_append]
      congr 1
      show walkEntry cfg pre (FSEntry.dir n dcs) ++ walkList cfg pre cs₂
        = walkList cfg pre cs₂
      rw [hentry]
      rfl
    rw [h1, h2]
  have hkeep : renderKeep cfg pre (FSEntry.dir n dcs) = false :=
    renderKeep_dir_false cfg pre n dcs hex
  refine ⟨hwalk, ?_, ?_, ?_⟩
  · rw [renderPairs_eq_map, renderPairs_eq_map, List.map_append, List.map_append,
      List.map_cons, sortFilterPairs_drop cfg pre _ _ _ _ hkeep]
  · unfold collectLevel
    rw [treeFilesPairs_eq_map, treeFilesPairs_eq_map, List.map_append, List.map_append,
      List.map_cons, sortFilterPairs_drop cfg pre _ _ _ _ hkeep]
  · intro hpre
    subst hpre
    show List.insertionSort pyStrLe (walkLevel cfg "" (cs₁ ++ FSEntry.dir n dcs :: cs₂))
      = List.insertionSort pyStrLe (walkLevel cfg "" (cs₁ ++ cs₂))
    rw [hwalk]

/-- Witness for C2 at a concrete layout: `node_modules` is excluded, so its
contents never reach the walk output. -/
theorem claim_C2_excluded_dir_never_descended_witness :
    ((["node_modules"] : List String).contains "node_modules"
      || giMatch none (childRel "" "node_modules" ++ "/")) = true
    ∧ walkLevel ⟨["node_modules"], [], [".py"], none⟩ ""
        ([FSEntry.file "a.py"] ++ FSEntry.dir "node_modules" [FSEntry.file "x.py"]
          :: [FSEntry.dir "src" [FSEntry.file "b.py"]])
      = walkLevel ⟨["node_modules"], [], [".py"], none⟩ ""
        ([FSEntry.file "a.py"] ++ [FSEntry.dir "src" [FSEntry.file "b.py"]]) :=
  ⟨by decide,
    (claim_C2_excluded_dir_never_descended ⟨["node_modules"], [], [".py"], none⟩ "" ""
      "node_modules" [FSEntry.file "x.py"] [FSEntry.file "a.py"]
      [FSEntry.dir "src" [FSEntry.file "b.py"]] (by decide)).1⟩

/-! Claim C7. -/

theorem pyStartsWith_weaken (s a b : String) (h : pyStartsWith s (a ++ b) = true) :
    pyStartsWith s a = true := by
  rw [pyStartsWith_iff] at h ⊢
  rcases h with ⟨t, ht⟩
  refine ⟨b.data ++ t, ?_⟩
  rw [ht, String.data_append, List.append_assoc]

theorem emitLoop_startsWith (pfx : String) (pairs : List (FSEntry × (String → List String)))
    (hsub : ∀ p ∈ pairs, ∀ q line, line ∈ p.2 q → pyStartsWith line q = true) :
    ∀ line ∈ emitLoop pfx pairs, pyStartsWith line pfx = true := by
  induction pairs with
  | nil => intro line h; cases h
  | cons p rest ih =>
    intro line hline
    obtain ⟨e, sub⟩ := p
    simp only [emitLoop] at hline
    rcases List.mem_cons.mp hline with h | h
    · subst h
      rw [String.append_assoc]
      exact pyStartsWith_append pfx _
    · rcases List.mem_append.mp h with h | h
      · have h2 := hsub (e, sub) (List.mem_cons_self _ _) _ line h
        exact pyStartsWith_weaken line pfx _ h2
      · exact ih (fun p hp => hsub p (List.mem_cons_of_mem _ hp)) line h

theorem renderSub_startsWith (cfg : ScanConfig) :
    ∀ e : FSEntry, ∀ pre q line, line ∈ renderSub cfg pre e q → pyStartsWith line q = true := by
  refine fsInduction
    (fun e => ∀ pre q line, line ∈ renderSub cfg pre e q → pyStartsWith line q = true)
    (fun cs => ∀ pre, ∀ p ∈ renderPairs cfg pre cs,
      ∀ q line, line ∈ p.2 q → pyStartsWith line q = true)
    ?_ ?_ ?_ ?_
  · intro n pre q line h
    cases h
  · intro n cs ih pre q line hline
    refine emitLoop_startsWith q _ ?_ line hline
    intro p hp q' line' hl'
    have hp3 : p ∈ renderPairs cfg (childRel pre n) cs :=
      (List.perm_insertionSort pairLe _).mem_iff.mp (List.mem_of_mem_filter hp)
    exact ih (childRel pre n) p hp3 q' line' hl'
  · intro pre p hp
    cases hp
  · intro e rest ihe ihr pre p hp q line hl
    simp only [renderPairs] at hp
    rcases List.mem_cons.mp hp with h | h
    · subst h
      exact ihe pre q line hl
    · exact ihr pre p h q line hl

/-- C7: the rendered children of every directory are the stable
directories-first / lowercased-basename sort of the listing restricted to the
renderable items (hence sorted under that key); each rendered sibling's line is
the column prefix, then `├── ` for a non-last and `└── ` for the last sibling,
then the basename, with a directory's block rendered under the prefix extended
by `    ` after a last sibling and `│   ` otherwise; and every line rendered
under a given column prefix extends that prefix. -/
theorem claim_C7_tree_order_and_format (cfg : ScanConfig) (pre pfx : String)
    (cs : List FSEntry) (pairs : List (FSEntry × (String → List String)))
    (e : FSEntry) (sub : String → List String)
    (rest : List (FSEntry × (String → List String))) :
    List.Sorted pairLe (sortFilterPairs cfg pre pairs)
    ∧ emitLoop pfx ((e, sub) :: rest)
      = (pfx ++ (if rest.isEmpty then "└── " else "├── ") ++ e.name)
        :: (sub (pfx ++ (if rest.isEmpty then "    " else "│   ")) ++ emitLoop pfx rest)
    ∧ (∀ line ∈ emitLoop pfx (sortFilterPairs cfg pre (renderPairs cfg pre cs)),
        pyStartsWith line pfx = true) := by
  refine ⟨?_, rfl, ?_⟩
  · exact List.Pairwise.filter _ (List.sorted_insertionSort pairLe pairs)
  · refine emitLoop_startsWith pfx _ ?_
    intro p hp q line hl
    have hp3 : p ∈ renderPairs cfg pre cs :=
      (List.perm_insertionSort pairLe _).mem_iff.mp (List.mem_of_mem_filter hp)
    rw [renderPairs_eq_map] at hp3
    rcases List.mem_map.mp hp3 with ⟨e', _, hpe⟩
    rw [← hpe] at hl
    exact renderSub_startsWith cfg e' pre q line hl

/-- Witness for C7 at a concrete layout: a rendered line extends its column
prefix. -/
theorem claim_C7_tree_order_and_format_witness :
    ("X└── d" ∈ emitLoop "X" (sortFilterPairs ⟨[], [], [".py"], none⟩ ""
        (renderPairs ⟨[], [], [".py"], none⟩ "" [FSEntry.dir "d" [FSEntry.file "a.py"]])))
    ∧ pyStartsWith "X└── d" "X" = true :=
  ⟨by decide,
    (claim_C7_tree_order_and_format ⟨[], [], [".py"], none⟩ "" "X"
        [FSEntry.dir "d" [FSEntry.file "a.py"]] [] (FSEntry.file "z") (fun _ => []) []).2.2
      "X└── d" (by decide)⟩

/-! Claim C4. -/

theorem infix_append_left_of_infix (a p m : List Char) (h : a <:+: m) : a <:+: p ++ m := by
  rcases h with ⟨u, v, huv⟩
  exact ⟨p ++ u, v, by rw [← huv, List.append_assoc, List.append_assoc, List.append_assoc]⟩

theorem infix_of_mem_strJoin (s : String) (parts : List String) (h : s ∈ parts) :
    s.data <:+: (strJoin parts).data := by
  induction parts with
  | nil => cases h
  | cons p rest ih =>
    rcases List.mem_cons.mp h with h | h
    · subst h
      show s.data <:+: (s ++ strJoin rest).data
      rw [String.data_append]
      exact (List.prefix_append s.data _).isInfix
    · show s.data <:+: (p ++ strJoin rest).data
      rw [String.data_append]
      exact infix_append_left_of_infix _ _ _ (ih h)

set_option maxRecDepth 8000 in
/-- C4 counterexample: a file that passed the inclusion filter but whose read
raises does NOT leave any marker (in particular not its reason) in the merged
output text — the source only logs the failure (main.py lines 143-144 append
nothing to `output_parts`).  The reason string does appear in the logger
stream. -/
theorem claim_C4_counterexample :
    find_files_to_process ⟨[], [], [".py"], none⟩ (some [FSEntry.file "a.py"]) = ["a.py"]
    ∧ ¬ ("PERM".data <:+:
        (generate_output_string ⟨[], [], [".py"], none⟩ "proj" (some [FSEntry.file "a.py"])
          (fun _ => Except.error "PERM")).1.data)
    ∧ ("⚠️  Could not read file (skipped): a.py | Reason: PERM")
        ∈ (generate_output_string ⟨[], [], [".py"], none⟩ "proj" (some [FSEntry.file "a.py"])
          (fun _ => Except.error "PERM")).2 :=
  ⟨by decide, by decide, by decide⟩

/-- C4 amended: for every file in the included list whose read fails, a log
line carrying the relative path and the reason is emitted (the merged output
text itself omits the file's segment), and the render continues: every other
included file that reads successfully still contributes its separator-plus-
content segment to the merged output text.  No failure aborts the operation:
`generate_output_string` is total. -/
theorem claim_C4_amended (cfg : ScanConfig) (rootName : String) (root : Option (List FSEntry))
    (reader : String → Except String String) (rel : String)
    (hmem : rel ∈ find_files_to_process cfg root) :
    (∀ e, reader rel = .error e →
      ("⚠️  Could not read file (skipped): " ++ rel ++ " | Reason: " ++ e)
        ∈ (generate_output_string cfg rootName root reader).2)
    ∧ (∀ c, reader rel = .ok c →
      ("\n\n# ===== File Path: " ++ rel ++ " =====\n\n" ++ c).data
        <:+: (generate_output_string cfg rootName root reader).1.data) := by
  constructor
  · intro e he
    simp only [generate_output_string]
    refine List.mem_append.mpr (Or.inr ?_)
    refine List.mem_map.mpr ⟨rel, hmem, ?_⟩
    simp [mergeSeg, he]
  · intro c hc
    have hpart : ("\n\n# ===== File Path: " ++ rel ++ " =====\n\n" ++ c)
        ∈ (find_files_to_process cfg root).map (fun r => (mergeSeg reader r).1) :=
      List.mem_map.mpr ⟨rel, hmem, by simp [mergeSeg, hc]⟩
    simp only [generate_output_string, String.data_append]
    exact infix_append_left_of_infix _ _ _ (infix_of_mem_strJoin _ _ hpart)

/-- Witness for the amended C4 at a concrete input: the failing read's log line
is present. -/
theorem claim_C4_amended_witness :
    ("a.py" ∈ find_files_to_process ⟨[], [], [".py"], none⟩ (some [FSEntry.file "a.py"]))
    ∧ ("⚠️  Could not read file (skipped): a.py | Reason: PERM")
        ∈ (generate_output_string ⟨[], [], [".py"], none⟩ "proj" (some [FSEntry.file "a.py"])
            (fun _ => Except.error "PERM")).2 :=
  ⟨by decide,
    (claim_C4_amended ⟨[], [], [".py"], none⟩ "proj" (some [FSEntry.file "a.py"])
        (fun _ => Except.error "PERM") "a.py" (by decide)).1 "PERM" rfl⟩

/-! Claim C3. -/

theorem extMatch_eq_extMatchTree (exts : List String) (n : String) :
    extMatch exts n = extMatchTree exts n := by
  unfold extMatch extMatchTree
  refine list_any_congr _ _ _ ?_
  intro ext _
  cases heq : n == ext
  · simp [heq]
  · have hne : n = ext := beq_iff_eq.mp heq
    subst hne
    simp [pyEndsWith_refl]

theorem renderKeep_file_eq (cfg : ScanConfig) (pre n : String)
    (hnx : cfg.exclude_dirs.contains n = false) :
    renderKeep cfg pre (.file n) = fileAdmitted cfg pre n := by
  unfold renderKeep fileAdmitted
  simp only [FSEntry.isFile, FSEntry.name, hnx]
  cases hg : giMatch cfg.gitignore_spec (childRel pre n)
  · cases hf : cfg.exclude_files.contains n
    · simp [hg, hf, extMatch_eq_extMatchTree]
    · simp [hg, hf]
  · simp [hg]

theorem renderKeep_dir_eq (cfg : ScanConfig) (pre n : String) (dcs : List FSEntry) :
    renderKeep cfg pre (.dir n dcs) = dirKept cfg pre n := by
  unfold renderKeep dirKept
  simp only [FSEntry.isFile, FSEntry.name]
  cases hg : giMatch cfg.gitignore_spec (childRel pre n ++ "/") <;>
    cases hc : cfg.exclude_dirs.contains n <;> simp [hg, hc]

theorem collectLevel_perm (cfg : ScanConfig) (pre : String) (cs : List FSEntry) :
    (collectLevel cfg pre (treeFilesPairs cfg pre cs)).Perm
      ((cs.filter fun e => renderKeep cfg pre e).flatMap
        fun e => treeFileItem pre e ++ treeFilesEntry cfg pre e) := by
  unfold collectLevel sortFilterPairs
  have hperm : ((List.insertionSort pairLe (treeFilesPairs cfg pre cs)).filter
      fun p => renderKeep cfg pre p.1).Perm
      ((treeFilesPairs cfg pre cs).filter fun p => renderKeep cfg pre p.1) :=
    (List.perm_insertionSort pairLe _).filter _
  refine (List.Perm.flatMap_right _ hperm).trans ?_
  rw [treeFilesPairs_eq_map, List.filter_map, List.flatMap_map]
  exact List.Perm.refl _

theorem walk_perm_treeFiles (cfg : ScanConfig) :
    (∀ e pre, fileNamesOkE cfg.exclude_dirs e = true →
      (subWalk cfg pre e).Perm (treeFilesEntry cfg pre e))
    ∧ (∀ cs pre, fileNamesOkL cfg.exclude_dirs cs = true →
      (walkLevel cfg pre cs).Perm (collectLevel cfg pre (treeFilesPairs cfg pre cs))) := by
  have hfile : ∀ n, ∀ pre, fileNamesOkE cfg.exclude_dirs (FSEntry.file n) = true →
      (subWalk cfg pre (FSEntry.file n)).Perm (treeFilesEntry cfg pre (FSEntry.file n)) :=
    fun n pre _ => List.Perm.refl []
  have hdir : ∀ n cs,
      (∀ pre, fileNamesOkL cfg.exclude_dirs cs = true →
        (walkLevel cfg pre cs).Perm (collectLevel cfg pre (treeFilesPairs cfg pre cs))) →
      ∀ pre, fileNamesOkE cfg.exclude_dirs (FSEntry.dir n cs) = true →
      (subWalk cfg pre (FSEntry.dir n cs)).Perm (treeFilesEntry cfg pre (FSEntry.dir n cs)) := by
    intro n cs ih pre hok
    exact ih (childRel pre n) hok
  have hnil : ∀ pre, fileNamesOkL cfg.exclude_dirs ([] : List FSEntry) = true →
      (walkLevel cfg pre []).Perm (collectLevel cfg pre (treeFilesPairs cfg pre [])) :=
    fun pre _ => List.Perm.refl _
  have hcons : ∀ e rest,
      (∀ pre, fileNamesOkE cfg.exclude_dirs e = true →
        (subWalk cfg pre e).Perm (treeFilesEntry cfg pre e)) →
      (∀ pre, fileNamesOkL cfg.exclude_dirs rest = true →
        (walkLevel cfg pre rest).Perm (collectLevel cfg pre (treeFilesPairs cfg pre rest))) →
      ∀ pre, fileNamesOkL cfg.exclude_dirs (e :: rest) = true →
      (walkLevel cfg pre (e :: rest)).Perm
        (collectLevel cfg pre (treeFilesPairs cfg pre (e :: rest))) := by
    intro e rest ihe ihr pre hok
    simp only [fileNamesOkL, Bool.and_eq_true] at hok
    obtain ⟨hoke, hokr⟩ := hok
    refine List.Perm.trans ?_ (collectLevel_perm cfg pre (e :: rest)).symm
    have ihrR : (walkLevel cfg pre rest).Perm
        ((rest.filter fun x => renderKeep cfg pre x).flatMap
          fun x => treeFileItem pre x ++ treeFilesEntry cfg pre x) :=
      (ihr pre hokr).trans (collectLevel_perm cfg pre rest)
    cases e with
    | file n =>
      have hnx : cfg.exclude_dirs.contains n = false := by
        simpa [fileNamesOkE] using hoke
      have hkeq : renderKeep cfg pre (FSEntry.file n) = fileAdmitted cfg pre n :=
        renderKeep_file_eq cfg pre n hnx
      cases hfa : fileAdmitted cfg pre n
      · have hlf : levelFiles cfg pre (FSEntry.file n :: rest) = levelFiles cfg pre rest := by
          simp [levelFiles, List.filterMap_cons, hfa]
        have hfl : ((FSEntry.file n :: rest).filter fun x => renderKeep cfg pre x)
            = rest.filter fun x => renderKeep cfg pre x := by
          rw [List.filter_cons]
          simp [hkeq, hfa]
        rw [hfl]
        show (levelFiles cfg pre (FSEntry.file n :: rest)
          ++ walkList cfg pre (FSEntry.file n :: rest)).Perm _
        rw [hlf]
        simp only [walkList, walkEntry, List.nil_append]
        exact ihrR
      · have hlf : levelFiles cfg pre (FSEntry.file n :: rest)
            = childRel pre n :: levelFiles cfg pre rest := by
          simp [levelFiles, List.filterMap_cons, hfa]
        have hfl : ((FSEntry.file n :: rest).filter fun x => renderKeep cfg pre x)
            = FSEntry.file n :: rest.filter fun x => renderKeep cfg pre x := by
          rw [List.filter_cons]
          simp [hkeq, hfa]
        rw [hfl]
        show (levelFiles cfg pre (FSEntry.file n :: rest)
          ++ walkList cfg pre (FSEntry.file n :: rest)).Perm _
        rw [hlf]
        simp only [walkList, walkEntry, List.nil_append, List.flatMap_cons, treeFileItem,
          treeFilesEntry, List.cons_append, List.append_nil]
        exact ihrR.cons (childRel pre n)
    | dir n dcs =>
      have hkeq : renderKeep cfg pre (FSEntry.dir n dcs) = dirKept cfg pre n :=
        renderKeep_dir_eq cfg pre n dcs
      have hlf : levelFiles cfg pre (FSEntry.dir n dcs :: rest) = levelFiles cfg pre rest := by
        simp [levelFiles, List.filterMap_cons]
      show (levelFiles cfg pre (FSEntry.dir n dcs :: rest)
        ++ walkList cfg pre (FSEntry.dir n dcs :: rest)).Perm _
      rw [hlf]
      simp only [walkList]
      cases hdk : dirKept cfg pre n
      · have hfl : ((FSEntry.dir n dcs :: rest).filter fun x => renderKeep cfg pre x)
            = rest.filter fun x => renderKeep cfg pre x := by
          rw [List.filter_cons]
          simp [hkeq, hdk]
        rw [hfl]
        have hent : walkEntry cfg pre (FSEntry.dir n dcs) = [] := by
          unfold walkEntry
          rw [hdk]
          rfl
        rw [hent, List.nil_append]
        exact ihrR
      · have hfl : ((FSEntry.dir n dcs :: rest).filter fun x => renderKeep cfg pre x)
            = FSEntry.dir n dcs :: rest.filter fun x => renderKeep cfg pre x := by
          rw [List.filter_cons]
          simp [hkeq, hdk]
        rw [hfl]
        have hent : walkEntry cfg pre (FSEntry.dir n dcs)
            = walkLevel cfg (childRel pre n) dcs := by
          unfold walkEntry
          rw [hdk]
          rfl
        rw [hent]
        simp only [List.flatMap_cons, treeFileItem, List.nil_append]
        refine (List.perm_append_comm_assoc _ _ _).trans ?_
        exact List.Perm.append (ihe pre hoke) ihrR
  exact ⟨fsInduction _ _ hfile hdir hnil hcons, fsListInduction _ _ hfile hdir hnil hcons⟩

/-- C3 counterexample: `create_directory_tree` applies the `exclude_dirs`
basename test to files as well (main.py line 51 checks `item_path.name in
exclude_dirs` before asking whether the item is a file), while
`find_files_to_process` applies `exclude_dirs` only when pruning directories.
A file named `build` with `exclude_dirs = {"build"}` and extension token
`build` is therefore in the returned file list but admitted nowhere in the
tree, so the two sets differ. -/
theorem claim_C3_counterexample :
    find_files_to_process ⟨["build"], [], ["build"], none⟩ (some [FSEntry.file "build"])
      = ["build"]
    ∧ treeFiles ⟨["build"], [], ["build"], none⟩ (some [FSEntry.file "build"]) = []
    ∧ "build" ∈ find_files_to_process ⟨["build"], [], ["build"], none⟩
        (some [FSEntry.file "build"])
    ∧ "build" ∉ treeFiles ⟨["build"], [], ["build"], none⟩ (some [FSEntry.file "build"]) :=
  ⟨by decide, by decide, by decide, by decide⟩

/-- C3 amended: provided no file anywhere in the layout has a basename in
`excludedDirNames` (the tree also suppresses such files; the file list does
not), the file list of the scan and the files admitted as file entries into the
tree are the same multiset, and the file list is the flat sort of that multiset
by relative path string.  The tree's own ordering is the per-level
directories-first sort (claim C7). -/
theorem claim_C3_amended (cfg : ScanConfig) (cs : List FSEntry)
    (h : fileNamesOkL cfg.exclude_dirs cs = true) :
    (find_files_to_process cfg (some cs)).Perm (treeFiles cfg (some cs))
    ∧ List.Sorted pyStrLe (find_files_to_process cfg (some cs)) := by
  constructor
  · show (List.insertionSort pyStrLe (walkLevel cfg "" cs)).Perm (treeFiles cfg (some cs))
    refine (List.perm_insertionSort pyStrLe _).trans ?_
    show (walkLevel cfg "" cs).Perm (collectLevel cfg "" (treeFilesPairs cfg "" cs))
    exact (walk_perm_treeFiles cfg).2 cs "" h
  · show List.Sorted pyStrLe (List.insertionSort pyStrLe (walkLevel cfg "" cs))
    exact List.sorted_insertionSort pyStrLe _

/-- Witness for the amended C3 at a concrete layout. -/
theorem claim_C3_amended_witness :
    fileNamesOkL (["node_modules"] : List String)
        [FSEntry.dir "src" [FSEntry.file "a.py"], FSEntry.file "b.py"] = true
    ∧ (find_files_to_process ⟨["node_modules"], [], [".py"], none⟩
        (some [FSEntry.dir "src" [FSEntry.file "a.py"], FSEntry.file "b.py"])).Perm
      (treeFiles ⟨["node_modules"], [], [".py"], none⟩
        (some [FSEntry.dir "src" [FSEntry.file "a.py"], FSEntry.file "b.py"])) :=
  ⟨by decide,
    (claim_C3_amended ⟨["node_modules"], [], [".py"], none⟩
      [FSEntry.dir "src" [FSEntry.file "a.py"], FSEntry.file "b.py"] (by decide)).1⟩

/-! Claim C5: helper lemmas about relative-path strings. -/

theorem not_mem_of_contains_false {α : Type} [BEq α] [LawfulBEq α] {a : α} {l : List α}
    (h : l.contains a = false) : a ∉ l := by
  intro hm
  have hc : l.contains a = true := List.elem_iff.mpr hm
  rw [hc] at h
  cases h

theorem nodupB_iff (l : List String) : nodupB l = true ↔ l.Nodup := by
  induction l with
  | nil => simp [nodupB]
  | cons a rest ih =>
    rw [List.nodup_cons]
    constructor
    · intro h
      rw [nodupB, Bool.and_eq_true] at h
      obtain ⟨h1, h2⟩ := h
      refine ⟨?_, ih.mp h2⟩
      cases hc : rest.contains a
      · exact not_mem_of_contains_false hc
      · rw [hc] at h1
        cases h1
    · rintro ⟨h1, h2⟩
      rw [nodupB, Bool.and_eq_true]
      refine ⟨?_, ih.mpr h2⟩
      cases hc : rest.contains a
      · rfl
      · exact absurd (List.elem_iff.mp hc) h1

theorem data_slash_append (a x : String) :
    (a ++ "/" ++ x).data = a.data ++ '/' :: x.data := by
  rw [String.data_append, String.data_append, List.append_assoc]
  rfl

theorem childRel_data (pre n : String) :
    (childRel pre n).data = preData pre ++ n.data := by
  unfold childRel preData
  by_cases hp : pre = ""
  · simp [hp]
  · rw [if_neg hp, if_neg hp, data_slash_append, List.append_assoc]
    rfl

theorem childRel_ext_data (pre n x : String) :
    (childRel pre n ++ "/" ++ x).data = preData pre ++ (n.data ++ '/' :: x.data) := by
  rw [data_slash_append, childRel_data, List.append_assoc]

theorem validName_no_slash (n : String) (h : validName n = true) : '/' ∉ n.data := by
  unfold validName at h
  rw [Bool.and_eq_true] at h
  obtain ⟨_, h2⟩ := h
  cases hc : n.data.contains '/'
  · exact not_mem_of_contains_false hc
  · rw [hc] at h2
    cases h2

theorem validName_ne_empty (n : String) (h : validName n = true) : n ≠ "" := by
  unfold validName at h
  rw [Bool.and_eq_true] at h
  obtain ⟨h1, _⟩ := h
  intro he
  subst he
  cases h1

theorem slash_split (a₁ : List Char) : ∀ a₂ r₁ r₂ : List Char, '/' ∉ a₁ → '/' ∉ a₂ →
    a₁ ++ '/' :: r₁ = a₂ ++ '/' :: r₂ → a₁ = a₂ ∧ r₁ = r₂ := by
  induction a₁ with
  | nil =>
    intro a₂ r₁ r₂ _ h₂ h
    cases a₂ with
    | nil => simpa using h
    | cons d u =>
      injection h with hc _
      subst hc
      exact absurd (List.mem_cons_self _ _) h₂
  | cons c t ih =>
    intro a₂ r₁ r₂ h₁ h₂ h
    cases a₂ with
    | nil =>
      injection h with hc _
      subst hc
      exact absurd (List.mem_cons_self _ _) h₁
    | cons d u =>
      injection h with hcd ht
      obtain ⟨e1, e2⟩ := ih u r₁ r₂ (fun hm => h₁ (List.mem_cons_of_mem c hm))
        (fun hm => h₂ (List.mem_cons_of_mem d hm)) ht
      exact ⟨by rw [hcd, e1], e2⟩

theorem childRel_inj (pre a b : String) (h : childRel pre a = childRel pre b) : a = b := by
  have hd := congrArg String.data h
  rw [childRel_data, childRel_data] at hd
  exact string_eq_of_data a b (List.append_cancel_left hd)

theorem childRel_split (pre a b x y : String)
    (ha : '/' ∉ a.data) (hb : '/' ∉ b.data)
    (h : childRel pre a ++ "/" ++ x = childRel pre b ++ "/" ++ y) : a = b ∧ x = y := by
  have hd := congrArg String.data h
  rw [childRel_ext_data, childRel_ext_data] at hd
  obtain ⟨e1, e2⟩ := slash_split a.data b.data x.data y.data ha hb (List.append_cancel_left hd)
  exact ⟨string_eq_of_data a b e1, string_eq_of_data x y e2⟩

theorem childRel_not_extend (pre a b x : String) (ha : '/' ∉ a.data) :
    childRel pre a ≠ childRel pre b ++ "/" ++ x := by
  intro h
  have hd := congrArg String.data h
  rw [childRel_data, childRel_ext_data] at hd
  have hab := List.append_cancel_left hd
  exact ha (hab ▸ List.mem_append.mpr (Or.inr (List.mem_cons_self _ _)))

theorem childRel_ne_empty (pre n : String) (h : validName n = true) :
    childRel pre n ≠ "" := by
  intro he
  have hd := congrArg String.data he
  rw [childRel_data] at hd
  have hn : n ≠ "" := validName_ne_empty n h
  unfold preData at hd
  by_cases hp : pre = ""
  · rw [if_pos hp] at hd
    exact hn (string_eq_of_data n "" (by simpa using hd))
  · rw [if_neg hp] at hd
    simp at hd

theorem childRel_of_ne (q m : String) (hq : q ≠ "") : childRel q m = q ++ "/" ++ m :=
  if_neg hq

theorem slashAssoc (a m x : String) :
    (a ++ "/" ++ m) ++ "/" ++ x = a ++ "/" ++ (m ++ "/" ++ x) := by
  simp [String.append_assoc]

theorem childRel_shapes_ne (pre a b : String) (ha : validName a = true)
    (hb : validName b = true) (hne : a ≠ b) :
    ∀ r, (r = childRel pre a ∨ ∃ x, r = childRel pre a ++ "/" ++ x) →
         (r = childRel pre b ∨ ∃ x, r = childRel pre b ++ "/" ++ x) → False := by
  intro r hra hrb
  rcases hra with h1 | ⟨x, h1⟩ <;> rcases hrb with h2 | ⟨y, h2⟩
  · exact hne (childRel_inj pre a b (h1 ▸ h2))
  · exact childRel_not_extend pre a b y (validName_no_slash a ha) (h1 ▸ h2)
  · exact childRel_not_extend pre b a x (validName_no_slash b hb) (h2 ▸ h1)
  · exact hne (childRel_split pre a b x y (validName_no_slash a ha)
      (validName_no_slash b hb) (h1 ▸ h2)).1

theorem wfE_validName (e : FSEntry) (h : wfE e = true) : validName e.name = true := by
  cases e with
  | file n => exact h
  | dir n cs =>
    rw [wfE, Bool.and_eq_true] at h
    exact h.1

theorem wfL_mem (cs : List FSEntry) (h : wfL cs = true) : ∀ e ∈ cs, wfE e = true := by
  induction cs with
  | nil =>
    intro e he
    cases he
  | cons a rest ih =>
    intro e he
    rw [wfL, Bool.and_eq_true] at h
    obtain ⟨h1, h2⟩ := h
    rcases List.mem_cons.mp he with he | he
    · subst he
      exact h1
    · exact ih h2 e he

theorem perm_middle_swap {α : Type} (a b c d : List α) :
    ((a ++ b) ++ (c ++ d)).Perm ((a ++ c) ++ (b ++ d)) := by
  rw [List.append_assoc, List.append_assoc]
  exact List.Perm.append_left a (List.perm_append_comm_assoc b c d)

theorem mem_levelFiles_singleton (cfg : ScanConfig) (pre : String) (e : FSEntry) (r : String)
    (h : r ∈ levelFiles cfg pre [e]) : r = childRel pre e.name := by
  cases e with
  | file n =>
    simp only [levelFiles, List.filterMap_cons, List.filterMap_nil] at h
    cases hfa : fileAdmitted cfg pre n
    · rw [hfa] at h
      simp at h
    · rw [hfa] at h
      simp at h
      exact h
  | dir n cs =>
    simp [levelFiles, List.filterMap_cons] at h

theorem levelFiles_rep (cfg : ScanConfig) (pre : String) (cs : List FSEntry) :
    ∃ ns : List String, levelFiles cfg pre cs = ns.map (childRel pre)
      ∧ ns.Sublist (namesOf cs) := by
  induction cs with
  | nil => exact ⟨[], rfl, List.Sublist.refl _⟩
  | cons e rest ih =>
    obtain ⟨ns, heq, hsub⟩ := ih
    cases e with
    | file n =>
      cases hfa : fileAdmitted cfg pre n
      · refine ⟨ns, ?_, hsub.cons _⟩
        simp only [levelFiles, List.filterMap_cons, hfa]
        exact heq
      · refine ⟨n :: ns, ?_, hsub.cons₂ _⟩
        simp only [levelFiles, List.filterMap_cons, hfa, List.map_cons]
        rw [← heq]
        rfl
    | dir n dcs =>
      refine ⟨ns, ?_, hsub.cons _⟩
      simp only [levelFiles, List.filterMap_cons]
      exact heq

theorem levelFiles_nodup (cfg : ScanConfig) (pre : String) (cs : List FSEntry)
    (hnd : nodupB (namesOf cs) = true) : (levelFiles cfg pre cs).Nodup := by
  obtain ⟨ns, heq, hsub⟩ := levelFiles_rep cfg pre cs
  rw [heq]
  refine List.Nodup.map_on ?_ (hsub.nodup ((nodupB_iff _).mp hnd))
  intro x _ y _ hxy
  exact childRel_inj pre x y hxy

theorem walk_shape (cfg : ScanConfig) :
    (∀ e, wfE e = true → ∀ pre r, r ∈ walkEntry cfg pre e →
      ∃ x, r = childRel pre e.name ++ "/" ++ x)
    ∧ (∀ cs, wfL cs = true → ∀ pre r, r ∈ walkLevel cfg pre cs →
      ∃ e' ∈ cs, r = childRel pre e'.name ∨ ∃ x, r = childRel pre e'.name ++ "/" ++ x) := by
  have hfile : ∀ n, wfE (FSEntry.file n) = true → ∀ pre r,
      r ∈ walkEntry cfg pre (FSEntry.file n) →
      ∃ x, r = childRel pre (FSEntry.file n).name ++ "/" ++ x := by
    intro n _ pre r h
    cases h
  have hdir : ∀ n cs, (wfL cs = true → ∀ pre r, r ∈ walkLevel cfg pre cs →
      ∃ e' ∈ cs, r = childRel pre e'.name ∨ ∃ x, r = childRel pre e'.name ++ "/" ++ x) →
      wfE (FSEntry.dir n cs) = true → ∀ pre r, r ∈ walkEntry cfg pre (FSEntry.dir n cs) →
      ∃ x, r = childRel pre (FSEntry.dir n cs).name ++ "/" ++ x := by
    intro n cs ih hwf pre r h
    rw [wfE, Bool.and_eq_true, Bool.and_eq_true] at hwf
    obtain ⟨hvn, _, hwl⟩ := hwf
    unfold walkEntry at h
    by_cases hk : dirKept cfg pre n = true
    · rw [if_pos hk] at h
      obtain ⟨e', _, hsh⟩ := ih hwl (childRel pre n) r h
      have hne : childRel pre n ≠ "" := childRel_ne_empty pre n hvn
      rcases hsh with h1 | ⟨x, h1⟩
      · exact ⟨e'.name, by rw [h1, childRel_of_ne _ _ hne]; rfl⟩
      · exact ⟨e'.name ++ "/" ++ x, by rw [h1, childRel_of_ne _ _ hne, slashAssoc]; rfl⟩
    · rw [if_neg hk] at h
      cases h
  have hnil : wfL ([] : List FSEntry) = true → ∀ pre r, r ∈ walkLevel cfg pre [] →
      ∃ e' ∈ ([] : List FSEntry), r = childRel pre e'.name
        ∨ ∃ x, r = childRel pre e'.name ++ "/" ++ x := by
    intro _ pre r h
    simp [walkLevel, levelFiles, walkList] at h
  have hcons : ∀ e rest,
      (wfE e = true → ∀ pre r, r ∈ walkEntry cfg pre e →
        ∃ x, r = childRel pre e.name ++ "/" ++ x) →
      (wfL rest = true → ∀ pre r, r ∈ walkLevel cfg pre rest →
        ∃ e' ∈ rest, r = childRel pre e'.name ∨ ∃ x, r = childRel pre e'.name ++ "/" ++ x) →
      wfL (e :: rest) = true → ∀ pre r, r ∈ walkLevel cfg pre (e :: rest) →
      ∃ e' ∈ e :: rest, r = childRel pre e'.name
        ∨ ∃ x, r = childRel pre e'.name ++ "/" ++ x := by
    intro e rest ihe ihr hwf pre r h
    rw [wfL, Bool.and_eq_true] at hwf
    obtain ⟨hwe, hwr⟩ := hwf
    have hsplit : levelFiles cfg pre (e :: rest)
        = levelFiles cfg pre [e] ++ levelFiles cfg pre rest := by
      show levelFiles cfg pre ([e] ++ rest) = _
      unfold levelFiles
      rw [List.filterMap_append]
    unfold walkLevel at h
    rw [hsplit] at h
    rcases List.mem_append.mp h with h | h
    · rcases List.mem_append.mp h with h | h
      · exact ⟨e, List.mem_cons_self _ _, Or.inl (mem_levelFiles_singleton cfg pre e r h)⟩
      · have h' : r ∈ walkLevel cfg pre rest := List.mem_append.mpr (Or.inl h)
        obtain ⟨e', he', hsh⟩ := ihr hwr pre r h'
        exact ⟨e', List.mem_cons_of_mem _ he', hsh⟩
    · have hwl : walkList cfg pre (e :: rest)
          = walkEntry cfg pre e ++ walkList cfg pre rest := rfl
      rw [hwl] at h
      rcases List.mem_append.mp h with h | h
      · obtain ⟨x, hx⟩ := ihe hwe pre r h
        exact ⟨e, List.mem_cons_self _ _, Or.inr ⟨x, hx⟩⟩
      · have h' : r ∈ walkLevel cfg pre rest := List.mem_append.mpr (Or.inr h)
        obtain ⟨e', he', hsh⟩ := ihr hwr pre r h'
        exact ⟨e', List.mem_cons_of_mem _ he', hsh⟩
  exact
    ⟨fsInduction
      (fun e => wfE e = true → ∀ pre r, r ∈ walkEntry cfg pre e →
        ∃ x, r = childRel pre e.name ++ "/" ++ x)
      (fun cs => wfL cs = true → ∀ pre r, r ∈ walkLevel cfg pre cs →
        ∃ e' ∈ cs, r = childRel pre e'.name ∨ ∃ x, r = childRel pre e'.name ++ "/" ++ x)
      hfile hdir hnil hcons,
     fsListInduction
      (fun e => wfE e = true → ∀ pre r, r ∈ walkEntry cfg pre e →
        ∃ x, r = childRel pre e.name ++ "/" ++ x)
      (fun cs => wfL cs = true → ∀ pre r, r ∈ walkLevel cfg pre cs →
        ∃ e' ∈ cs, r = childRel pre e'.name ∨ ∃ x, r = childRel pre e'.name ++ "/" ++ x)
      hfile hdir hnil hcons⟩

theorem walkLevel_nodup (cfg : ScanConfig) :
    (∀ e, wfE e = true → ∀ pre, (walkEntry cfg pre e).Nodup)
    ∧ (∀ cs, (nodupB (namesOf cs) && wfL cs) = true → ∀ pre, (walkLevel cfg pre cs).Nodup) := by
  have hfile : ∀ n, wfE (FSEntry.file n) = true → ∀ pre,
      (walkEntry cfg pre (FSEntry.file n)).Nodup :=
    fun _ _ _ => List.nodup_nil
  have hdir : ∀ n cs,
      ((nodupB (namesOf cs) && wfL cs) = true → ∀ pre, (walkLevel cfg pre cs).Nodup) →
      wfE (FSEntry.dir n cs) = true → ∀ pre, (walkEntry cfg pre (FSEntry.dir n cs)).Nodup := by
    intro n cs ih hwf pre
    rw [wfE, Bool.and_eq_true] at hwf
    obtain ⟨_, hrest⟩ := hwf
    unfold walkEntry
    by_cases hk : dirKept cfg pre n = true
    · rw [if_pos hk]
      exact ih hrest (childRel pre n)
    · rw [if_neg hk]
      exact List.nodup_nil
  have hnil : (nodupB (namesOf ([] : List FSEntry)) && wfL []) = true → ∀ pre,
      (walkLevel cfg pre ([] : List FSEntry)).Nodup := by
    intro _ pre
    show ((List.filterMap _ []) ++ _).Nodup
    exact List.nodup_nil
  have hcons : ∀ e rest,
      (wfE e = true → ∀ pre, (walkEntry cfg pre e).Nodup) →
      ((nodupB (namesOf rest) && wfL rest) = true → ∀ pre, (walkLevel cfg pre rest).Nodup) →
      (nodupB (namesOf (e :: rest)) && wfL (e :: rest)) = true → ∀ pre,
      (walkLevel cfg pre (e :: rest)).Nodup := by
    intro e rest ihe ihr hwf pre
    rw [Bool.and_eq_true] at hwf
    obtain ⟨hnd, hwl⟩ := hwf
    rw [show namesOf (e :: rest) = e.name :: namesOf rest from rfl, nodupB,
      Bool.and_eq_true] at hnd
    obtain ⟨hnotin, hndrest⟩ := hnd
    rw [wfL, Bool.and_eq_true] at hwl
    obtain ⟨hwe, hwrest⟩ := hwl
    have hnmem : e.name ∉ namesOf rest := by
      cases hc : (namesOf rest).contains e.name
      · exact not_mem_of_contains_false hc
      · rw [hc] at hnotin
        cases hnotin
    have hsplit : walkLevel cfg pre (e :: rest)
        = (levelFiles cfg pre [e] ++ levelFiles cfg pre rest)
          ++ (walkEntry cfg pre e ++ walkList cfg pre rest) := by
      unfold walkLevel
      congr 1
      show levelFiles cfg pre ([e] ++ rest) = _
      unfold levelFiles
      rw [List.filterMap_append]
    rw [hsplit]
    refine ((perm_middle_swap _ _ _ _).nodup_iff).mpr ?_
    refine List.Nodup.append ?_ ?_ ?_
    · cases e with
      | file n =>
        have hwen : walkEntry cfg pre (FSEntry.file n) = [] := rfl
        rw [hwen, List.append_nil]
        refine levelFiles_nodup cfg pre [FSEntry.file n] ?_
        rfl
      | dir n dcs =>
        have hlfd : levelFiles cfg pre [FSEntry.dir n dcs] = [] := rfl
        rw [hlfd, List.nil_append]
        exact ihe hwe pre
    · have hq : (nodupB (namesOf rest) && wfL rest) = true := by
        rw [Bool.and_eq_true]
        exact ⟨hndrest, hwrest⟩
      exact ihr hq pre
    · intro r hrL hrR
      have hshL : r = childRel pre e.name ∨ ∃ x, r = childRel pre e.name ++ "/" ++ x := by
        rcases List.mem_append.mp hrL with h | h
        · exact Or.inl (mem_levelFiles_singleton cfg pre e r h)
        · exact Or.inr ((walk_shape cfg).1 e hwe pre r h)
      obtain ⟨e', he', hshR⟩ := (walk_shape cfg).2 rest hwrest pre r hrR
      have hneq : e.name ≠ e'.name := by
        intro hE
        refine hnmem ?_
        rw [hE]
        exact List.mem_map_of_mem FSEntry.name he'
      exact childRel_shapes_ne pre e.name e'.name (wfE_validName e hwe)
        (wfE_validName e' (wfL_mem rest hwrest e' he')) hneq r hshL hshR
  exact
    ⟨fsInduction
      (fun e => wfE e = true → ∀ pre, (walkEntry cfg pre e).Nodup)
      (fun cs => (nodupB (namesOf cs) && wfL cs) = true → ∀ pre, (walkLevel cfg pre cs).Nodup)
      hfile hdir hnil hcons,
     fsListInduction
      (fun e => wfE e = true → ∀ pre, (walkEntry cfg pre e).Nodup)
      (fun cs => (nodupB (namesOf cs) && wfL cs) = true → ∀ pre, (walkLevel cfg pre cs).Nodup)
      hfile hdir hnil hcons⟩

theorem pairwise_lt_of_sorted_nodup (l : List String)
    (hs : List.Sorted pyStrLe l) (hn : l.Nodup) : List.Pairwise pyStrLt l := by
  have h := List.Pairwise.and hs hn
  exact h.imp fun h' => pyStrLt_of_le_of_ne _ _ h'.1 h'.2

/-- C5: over any well-formed layout (sibling basenames pairwise distinct,
nonempty and `/`-free, as an operating system guarantees), the included-file
list is strictly increasing — duplicate-free — in the code-point lexicographic
order of relative path strings; the sorted file list of every directory level
is invariant under permuting that level's operating-system entry order; and the
scan is deterministic: re-running on the unchanged layout reproduces the tree
text and the file list exactly. -/
theorem claim_C5_strict_sort_determinism (cfg : ScanConfig) (cs : List FSEntry)
    (rootName : String) (h : wfTop cs = true) :
    List.Pairwise pyStrLt (find_files_to_process cfg (some cs))
    ∧ (∀ pre cs₁ cs₂, cs₁.Perm cs₂ →
        List.insertionSort pyStrLe (walkLevel cfg pre cs₁)
          = List.insertionSort pyStrLe (walkLevel cfg pre cs₂))
    ∧ find_files_to_process cfg (some cs) = find_files_to_process cfg (some cs)
    ∧ create_directory_tree cfg rootName (some cs)
      = create_directory_tree cfg rootName (some cs) := by
  refine ⟨?_, ?_, rfl, rfl⟩
  · show List.Pairwise pyStrLt (List.insertionSort pyStrLe (walkLevel cfg "" cs))
    refine pairwise_lt_of_sorted_nodup _ (List.sorted_insertionSort _ _) ?_
    refine ((List.perm_insertionSort pyStrLe _).nodup_iff).mpr ?_
    exact (walkLevel_nodup cfg).2 cs h ""
  · intro pre cs₁ cs₂ hp
    have hperm : (walkLevel cfg pre cs₁).Perm (walkLevel cfg pre cs₂) := by
      unfold walkLevel levelFiles
      refine List.Perm.append (hp.filterMap _) ?_
      rw [walkList_eq_flatMap, walkList_eq_flatMap]
      exact hp.flatMap_right _
    exact List.eq_of_perm_of_sorted
      ((List.perm_insertionSort pyStrLe _).trans
        (hperm.trans (List.perm_insertionSort pyStrLe _).symm))
      (List.sorted_insertionSort _ _) (List.sorted_insertionSort _ _)

/-- Witness for C5 at a concrete well-formed layout. -/
theorem claim_C5_strict_sort_determinism_witness :
    wfTop [FSEntry.dir "src" [FSEntry.file "a.py"], FSEntry.file "b.py"] = true
    ∧ List.Pairwise pyStrLt (find_files_to_process ⟨[], [], [".py"], none⟩
        (some [FSEntry.dir "src" [FSEntry.file "a.py"], FSEntry.file "b.py"])) :=
  ⟨by decide,
    (claim_C5_strict_sort_determinism ⟨[], [], [".py"], none⟩
      [FSEntry.dir "src" [FSEntry.file "a.py"], FSEntry.file "b.py"] "proj" (by decide)).1⟩
